import Mathlib

/-!
Shallow embedding of the tiled-diffusion coordinator in
`methods/abstractdiffusion.py`, together with proofs settling the claims
about it.

Conventions of the embedding:
* Python `int` arithmetic is `Nat`/`Int`; Python float arithmetic on the
  small quantities appearing here (tile offsets, feather weights, region
  fractions) is exact in IEEE doubles at every input used below, so it is
  embedded as `ℚ`.
* `int(q)` (truncation toward zero) is `pyInt`.
* Tensors are embedded by the structure the code inspects: a cross-attention
  conditioning tensor is a list of batch rows (`List α`, one abstract entry
  per batch row) together with its token length (`shape[1]`) where the code
  branches on it; a 2-D mask is a function `ℕ → ℕ → ℚ`.
* Code that raises (`KeyError`, `IndexError`, a failing `assert`,
  `torch.cat` misuse) returns `none` / `.error`.
-/

set_option maxHeartbeats 1000000

/-- Python `int(q)`: truncation toward zero. -/
def pyInt (q : ℚ) : ℤ := if 0 ≤ q then ⌊q⌋ else ⌈q⌉

/-- `math.ceil(a / b)` for nonnegative integers (exact for the float
division the code performs at these magnitudes). -/
def natCeilDiv (a b : ℕ) : ℕ := (a + b - 1) / b

/-! ## Tile batching (`TiledDiffusion.__init__`, lines 134-140)

```
self.num_batches = math.ceil(len(bboxes) / tile_batch_size)
optimal_batch_size = math.ceil(len(bboxes) / self.num_batches)
self.tile_batch_size = optimal_batch_size
for i in range(self.num_batches):
    start = i * tile_batch_size
    end = min((i + 1) * tile_batch_size, len(bboxes))
    self.batched_bboxes.append(bboxes[start:end])
```
Note the slicing uses the *requested* `tile_batch_size`, not
`optimal_batch_size`. -/

def numBatchesOf (n b : ℕ) : ℕ := natCeilDiv n b

/-- Computed and stored in `self.tile_batch_size`, but not used by the
slicing loop. -/
def optimalBatchSize (n b : ℕ) : ℕ := natCeilDiv n (numBatchesOf n b)

/-- The batching loop: `bboxes[i*b : min((i+1)*b, n)]` for
`i in range(num_batches)`. -/
def batchedBBoxes {β : Type} (bboxes : List β) (b : ℕ) : List (List β) :=
  (List.range (numBatchesOf bboxes.length b)).map
    (fun i => (bboxes.drop (i * b)).take b)

/-! ## Feather mask (`CustomBBox.generate_feather_mask`, lines 60-79)

```
w, h = self.w, self.h
mask = np.ones((h, w), dtype=np.float32)
feather_radius = int(min(w//2, h//2) * self.feather_ratio)
for i in range(h//2):
    for j in range(w//2):
        dist = min(i, j)
        if dist >= feather_radius: continue
        weight = (dist / feather_radius) ** 2
        mask[i, j] = weight
        mask[i, w-j-1] = weight
        mask[h-i-1, j] = weight
        mask[h-i-1, w-j-1] = weight
```
The mask is embedded as a function `ℕ → ℕ → ℚ` (row, column). -/

/-- The loop's `(i, j)` iteration order (row-major). -/
def featherPairs (h2 w2 : ℕ) : List (ℕ × ℕ) :=
  (List.range h2).bind (fun i => (List.range w2).map (fun j => (i, j)))

/-- One iteration of the loop body: the `continue` guard, the weight, and
the four mirrored writes. -/
def featherStep (w h r : ℕ) (m : ℕ → ℕ → ℚ) (p : ℕ × ℕ) : ℕ → ℕ → ℚ :=
  if r ≤ min p.1 p.2 then m
  else
    fun i j =>
      if (i = p.1 ∨ i = h - 1 - p.1) ∧ (j = p.2 ∨ j = w - 1 - p.2) then
        ((min p.1 p.2 : ℚ) / (r : ℚ)) ^ 2
      else m i j

/-- `CustomBBox.generate_feather_mask`, reading `self.feather_ratio`
(which `__init__` has already clamped to `[0, 1]`). -/
def generateFeatherMask (w h : ℕ) (frac : ℚ) : ℕ → ℕ → ℚ :=
  (featherPairs (h / 2) (w / 2)).foldl
    (featherStep w h (pyInt (((min (w / 2) (h / 2) : ℕ) : ℚ) * frac)).toNat)
    (fun _ _ => 1)

/-- Iteration `p` writes cell `(ci, cj)` iff the guard passes and the cell
is one of the four mirror targets. -/
def featherWrites (w h r : ℕ) (p : ℕ × ℕ) (ci cj : ℕ) : Prop :=
  min p.1 p.2 < r ∧ (ci = p.1 ∨ ci = h - 1 - p.1) ∧ (cj = p.2 ∨ cj = w - 1 - p.2)

/-! ## Region tuples and `init_custom_bbox` (lines 204-226)

```
self.custom_bboxes = []
for i in range(0, len(bbox_control_states) - 9, 9):
    enable, x, y, w, h, p, neg, blend_mode, feather_ratio = bbox_control_states[i:i+9]
    if not enable or x >= 1 or y>=1 or w <= 0 or h <= 0: continue
    ...
if len(self.custom_bboxes) == 0: return
self.draw_background = draw_background
if not draw_background: self.weights.zero_()
```
The flat 9-field control list is embedded as a `List RegionTuple`; the loop
index `i = 9*q` reads tuple `q`. -/

inductive BlendModeL where
  | foreground
  | background
deriving DecidableEq

structure RegionTuple where
  enable : Bool
  x : ℚ
  y : ℚ
  w : ℚ
  h : ℚ
  prompt : String
  negPrompt : String
  blendMode : BlendModeL
  featherFrac : ℚ

structure CustomBBoxL where
  x : ℤ
  y : ℤ
  w : ℤ
  h : ℤ
  prompt : String
  negPrompt : String
  blendMode : BlendModeL
  featherFrac : ℚ
  featherMask : Option (ℕ → ℕ → ℚ)

/-- `CustomBBox(x, y, w, h, p, neg, BlendMode(blend_mode), feather_ratio)`
after the geometry conversion in `init_custom_bbox` and the feather-ratio
clamp in `CustomBBox.__init__`. -/
def mkCustomBBox (W H : ℕ) (t : RegionTuple) : CustomBBoxL :=
  let x0 : ℤ := pyInt (t.x * W)
  let y0 : ℤ := pyInt (t.y * H)
  let w0 : ℤ := ⌈t.w * W⌉
  let h0 : ℤ := ⌈t.h * H⌉
  let x1 : ℤ := max 0 x0
  let y1 : ℤ := max 0 y0
  let w1 : ℤ := min ((W : ℤ) - x1) w0
  let h1 : ℤ := min ((H : ℤ) - y1) h0
  let frac : ℚ := max (min t.featherFrac 1) 0
  { x := x1, y := y1, w := w1, h := h1,
    prompt := t.prompt, negPrompt := t.negPrompt, blendMode := t.blendMode,
    featherFrac := frac,
    featherMask := if t.blendMode = BlendModeL.foreground then
      some (generateFeatherMask w1.toNat h1.toNat frac) else none }

/-- The `continue` filter: tuple kept iff enabled and non-degenerate. -/
def tupleValid (t : RegionTuple) : Bool :=
  t.enable && !(decide (1 ≤ t.x)) && !(decide (1 ≤ t.y))
    && !(decide (t.w ≤ 0)) && !(decide (t.h ≤ 0))

/-- Iteration count of `range(0, numFields - 9, 9)`; a negative Python bound
yields zero iterations, matching truncated `ℕ` subtraction. -/
def regionLoopIters (numFields : ℕ) : ℕ := (numFields - 9 + 8) / 9

/-- The region-collection loop of `init_custom_bbox`; `bbox_control_states`
has `9 * tuples.length` fields. -/
def initCustomBBox (W H : ℕ) (tuples : List RegionTuple) : List CustomBBoxL :=
  (List.range (regionLoopIters (9 * tuples.length))).foldl
    (fun acc q =>
      match tuples.get? q with
      | none => acc
      | some t => if tupleValid t then acc ++ [mkCustomBBox W H t] else acc)
    []

/-! ## Tile geometry (`TiledDiffusion.split_views`, lines 175-198)

```
non_overlap_width = tile_w - overlap
cols = math.ceil((w - overlap) / non_overlap_width)
dx = (w - tile_w) / (cols - 1) if cols > 1 else 0
for row in range(rows):
    y = int(row * dy)
    if y + tile_h >= h: y = h - tile_h
    for col in range(cols):
        x = int(col * dx)
        if x + tile_w >= w: x = w - tile_w
        bbox = BBox(x, y, tile_w, tile_h)
        bbox_list.append(bbox)
        count[bbox.slice] += self.get_global_weights()
```
`get_global_weights` is abstract in this class; it is embedded as an
arbitrary per-tile kernel `ℕ → ℕ → ℚ` indexed by in-tile offsets. -/

structure BBoxL where
  x : ℕ
  y : ℕ
  w : ℕ
  h : ℕ
deriving DecidableEq

def tileDx (W tw cols : ℕ) : ℚ :=
  if 1 < cols then ((W : ℚ) - (tw : ℚ)) / ((cols : ℚ) - 1) else 0

/-- `x = int(col * dx); if x + tile_w >= w: x = w - tile_w`. -/
def tileOffset (W tw cols c : ℕ) : ℕ :=
  if W ≤ (pyInt ((c : ℚ) * tileDx W tw cols)).toNat + tw then W - tw
  else (pyInt ((c : ℚ) * tileDx W tw cols)).toNat

/-- The offset formula of the spec sentence, with `floor` in place of the
claimed `round` (written from the amended spec wording, for comparison with
`tileOffset`). -/
def specFloorOffset (W tw cols c : ℕ) : ℕ :=
  if 1 < cols then (⌊(c : ℚ) * (((W : ℚ) - (tw : ℚ)) / ((cols : ℚ) - 1))⌋).toNat
  else 0

/-- Contribution of one tile to the weight map at cell `(i, j)`. -/
def bboxContrib (kernel : ℕ → ℕ → ℚ) (i j : ℕ) (bb : BBoxL) : ℚ :=
  if bb.y ≤ i ∧ i < bb.y + bb.h ∧ bb.x ≤ j ∧ j < bb.x + bb.w then
    kernel (i - bb.y) (j - bb.x)
  else 0

def splitViews (kernel : ℕ → ℕ → ℚ) (W H tw th o : ℕ) :
    List BBoxL × (ℕ → ℕ → ℚ) :=
  let cols := natCeilDiv (W - o) (tw - o)
  let rows := natCeilDiv (H - o) (th - o)
  let bbs := (List.range rows).bind (fun r =>
    (List.range cols).map (fun c =>
      { x := tileOffset W tw cols c, y := tileOffset H th rows r,
        w := tw, h := th }))
  (bbs,
   bbs.foldl (fun cnt bb => fun i j =>
     if bb.y ≤ i ∧ i < bb.y + bb.h ∧ bb.x ≤ j ∧ j < bb.x + bb.w then
       cnt i j + kernel (i - bb.y) (j - bb.x)
     else cnt i j) (fun _ _ => 0))

/-- `if tile_w > self.w: tile_w = self.w` (`__init__`, line 102). -/
def clampTile (canvas req : ℕ) : ℕ := if canvas < req then canvas else req

/-- `if overlap >= min_tile_size: overlap = min_tile_size - 4;`
`if overlap < 0: overlap = 0` (`__init__`, lines 104-106). -/
def clampOverlap (tw th : ℕ) (ro : ℤ) : ℕ :=
  (max (if min (tw : ℤ) (th : ℤ) ≤ ro then min (tw : ℤ) (th : ℤ) - 4 else ro)
    0).toNat

/-- The `__init__` pipeline from requested tile size / overlap to the
`split_views` call (lines 100-133). -/
def tdSetup (kernel : ℕ → ℕ → ℚ) (W H rtw rth : ℕ) (ro : ℤ) :
    List BBoxL × (ℕ → ℕ → ℚ) :=
  splitViews kernel W H (clampTile W rtw) (clampTile H rth)
    (clampOverlap (clampTile W rtw) (clampTile H rth) ro)

/-! ## Coordinator state relevant to the `init` assertion (lines 142-152,
204-226). -/

structure TDState where
  w : ℕ
  h : ℕ
  numBatches : ℕ
  drawBackground : Bool
  customBBoxes : List CustomBBoxL

/-- `self.total_bboxes = (self.num_batches if self.draw_background else 0)
+ len(self.custom_bboxes)` (line 150). -/
def tdTotalBboxes (st : TDState) : ℕ :=
  (if st.drawBackground then st.numBatches else 0) + st.customBBoxes.length

/-- The constructor state: `draw_background = True`, no custom bboxes,
`num_batches` from the tile count. -/
def tdInit (kernel : ℕ → ℕ → ℚ) (W H rtw rth : ℕ) (ro : ℤ) (batch : ℕ) :
    TDState :=
  { w := W, h := H,
    numBatches := numBatchesOf (tdSetup kernel W H rtw rth ro).1.length batch,
    drawBackground := true, customBBoxes := [] }

/-- The state effect of `init_custom_bbox`: the bbox list is rebuilt from
scratch; on an empty result the method returns before touching
`draw_background`. -/
def tdInitCustomBBox (st : TDState) (db : Bool) (tuples : List RegionTuple) :
    TDState :=
  let cbs := initCustomBBox st.w st.h tuples
  if cbs.length = 0 then { st with customBBoxes := cbs }
  else { st with customBBoxes := cbs, drawBackground := db }

/-! ## Family-A dispatch (`ddim_custom_forward`, lines 364-385) -/

structure DDIMCall (α ι : Type) where
  condRows : List (List α)
  uncondRows : List (List α)
  imageCond : Option ι

/-- `shape[1]` of a rectangular batch-of-sequences tensor. -/
def shape1 {α : Type} (t : List (List α)) : ℕ :=
  ((t.head?).map List.length).getD 0

/-- `ddim_custom_forward` after `reconstruct_custom_cond`: the composite-
conditioning assert, the pad/truncate of the unconditional tensor, and the
single `forward_func` invocation.  A tensor is a list of batch rows, each a
list of sequence elements. -/
def ddimCustomForward (α ι : Type) [Inhabited α] (condsList : List (List ℕ))
    (tensor uncond : List (List α)) (ic : Option ι) :
    Except String (List (DDIMCall α ι)) :=
  if condsList.all (fun conds => conds.length == 1) then
    .ok [⟨tensor,
      (if shape1 uncond < shape1 tensor then
        uncond.map (fun row =>
          row ++ List.replicate (shape1 tensor - shape1 uncond)
            ((row.getLast?).getD default))
      else if shape1 tensor < shape1 uncond then
        uncond.map (fun row => row.take (shape1 tensor))
      else uncond), ic⟩]
  else .error "composition via AND is not supported for DDIM/PLMS samplers"

/-! ## Family-B dispatch (`kdiff_custom_forward`, lines 256-362)

State fields mirror `self.kdiff_step`, `self.kdiff_step_bbox`,
`self.tensor`, `self.uncond`, `self.image_cond_in`, `self.a`.  Dicts are
association lists (`ℕ × _`), assignment is `cons`.  Each call's
`reconstruct_custom_cond` result (region-local conditioning rows, token
lengths) and the step-reset shape probe (`real_tensor`/`real_uncond` token
lengths, from the whole-canvas conditioning) are inputs.  A call's output
records the `c_crossattn` rows handed to each `forward_func` invocation;
`set_control_tensor` side effects live in a different subsystem and carry no
dispatch state, so they are not modelled.  Python exceptions (`KeyError`,
`IndexError`, the `torch.cat([tensor[a:b]], uncond)` misuse in the
edit-model branch) are `none`. -/

structure KEnv where
  samplerStep : ℤ
  nBboxes : ℕ
  globalCondLen : ℕ
  globalUncondLen : ℕ
  batchCondUncond : Bool
  isEditModel : Bool

structure KDiffState (α : Type) where
  kdiffStep : ℤ
  kdiffStepBbox : List ℤ
  tensorCache : List (ℕ × List α)
  uncondCache : List (ℕ × List α)
  imageCondCache : List (ℕ × Option α)
  a : List ℕ

structure KCallIn (α : Type) where
  bboxId : ℕ
  batchSize : ℕ
  condRows : List α
  uncondRows : List α
  condSeqLen : ℕ
  uncondSeqLen : ℕ
  imageCond : Option α

structure KCall (α : Type) where
  rows : List α
deriving DecidableEq

/-- The step-boundary reset (lines 269-279). -/
def kdiffResetState (α : Type) (env : KEnv) : KDiffState α :=
  { kdiffStep := env.samplerStep,
    kdiffStepBbox := List.replicate env.nBboxes (-1),
    tensorCache := [],
    uncondCache := [],
    imageCondCache := [],
    a := List.replicate env.nBboxes 0 }

/-- Lines 329-362: cursor advance and the sliced cond / whole-uncond
dispatch. -/
def kdiffDispatchTail {α : Type} (env : KEnv) (st : KDiffState α)
    (inp : KCallIn α) : Option (KDiffState α × List (KCall α)) :=
  match st.tensorCache.lookup inp.bboxId, st.uncondCache.lookup inp.bboxId,
      st.imageCondCache.lookup inp.bboxId, st.a.get? inp.bboxId with
  | some tensor, some uncond, some _, some a0 =>
    let st1 : KDiffState α :=
      { st with a := st.a.set inp.bboxId (a0 + inp.batchSize) }
    if a0 < tensor.length then
      if env.isEditModel then none
      else some (st1, [⟨(tensor.drop a0).take inp.batchSize⟩])
    else
      some (st1, [⟨uncond⟩])
  | _, _, _, _ => none

/-- Lines 281-362: the per-bbox first-touch branch followed by the shared
tail. -/
def kdiffForwardTail {α : Type} (env : KEnv) (st : KDiffState α)
    (inp : KCallIn α) : Option (KDiffState α × List (KCall α)) :=
  match st.kdiffStepBbox.get? inp.bboxId with
  | none => none
  | some marker =>
    if marker = env.samplerStep then
      kdiffDispatchTail env st inp
    else
      let st2 : KDiffState α :=
        { st with kdiffStepBbox :=
            st.kdiffStepBbox.set inp.bboxId env.samplerStep }
      if env.globalCondLen = env.globalUncondLen then
        if inp.condSeqLen = inp.uncondSeqLen ∧ env.batchCondUncond = true then
          some (st2, [⟨inp.condRows ++ inp.uncondRows ++
            (if env.isEditModel then inp.uncondRows else [])⟩])
        else
          some (st2, [⟨inp.condRows⟩, ⟨inp.uncondRows⟩])
      else
        kdiffDispatchTail env
          { st2 with
            tensorCache := (inp.bboxId, inp.condRows) :: st2.tensorCache,
            uncondCache := (inp.bboxId, inp.uncondRows) :: st2.uncondCache,
            imageCondCache :=
              (inp.bboxId, inp.imageCond) :: st2.imageCondCache } inp

/-- One `kdiff_custom_forward` call (lines 269-362). -/
def kdiffForward {α : Type} (env : KEnv) (st : KDiffState α)
    (inp : KCallIn α) : Option (KDiffState α × List (KCall α)) :=
  kdiffForwardTail env
    (if st.kdiffStep ≠ env.samplerStep then kdiffResetState α env else st) inp

/-- A sequence of `kdiff_custom_forward` calls within one sampler step,
collecting every `forward_func` invocation in order. -/
def kdiffRun {α : Type} (env : KEnv) :
    KDiffState α → List (KCallIn α) → Option (KDiffState α × List (KCall α))
  | st, [] => some (st, [])
  | st, inp :: rest =>
    match kdiffForward env st inp with
    | none => none
    | some (st1, calls) =>
      match kdiffRun env st1 rest with
      | none => none
      | some (st2, calls2) => some (st2, calls ++ calls2)

/-- The concatenation of all `c_crossattn` rows handed to `forward_func`
over a call sequence. -/
def kdiffRunRows {α : Type} (env : KEnv) (st : KDiffState α)
    (inps : List (KCallIn α)) : Option (List α) :=
  (kdiffRun env st inps).map (fun p => (p.2.map KCall.rows).flatten)

/-- The state immediately after a step reset and first touch of a region in
the ragged-global branch: marker set, caches holding that region's
conditioning, all cursors zero. -/
def kdiffTouched (α : Type) (env : KEnv) (inp : KCallIn α) : KDiffState α :=
  { kdiffStep := env.samplerStep,
    kdiffStepBbox :=
      (List.replicate env.nBboxes (-1 : ℤ)).set inp.bboxId env.samplerStep,
    tensorCache := [(inp.bboxId, inp.condRows)],
    uncondCache := [(inp.bboxId, inp.uncondRows)],
    imageCondCache := [(inp.bboxId, inp.imageCond)],
    a := List.replicate env.nBboxes 0 }

/-- State of a region mid-step in the ragged-global branch: recorded step
current, marker current, conditioning cached, cursor at `cursor`. -/
structure KLoaded {α : Type} (env : KEnv) (st : KDiffState α) (bboxId : ℕ)
    (condRows uncondRows : List α) (cursor : ℕ) : Prop where
  hstep : st.kdiffStep = env.samplerStep
  hmarker : st.kdiffStepBbox.get? bboxId = some env.samplerStep
  htc : st.tensorCache.lookup bboxId = some condRows
  huc : st.uncondCache.lookup bboxId = some uncondRows
  hic : ∃ icv, st.imageCondCache.lookup bboxId = some icv
  ha : st.a.get? bboxId = some cursor

/-! ## Concrete instances used by counterexamples and witnesses -/

/-- An enabled, non-degenerate region tuple (the full canvas). -/
def goodTuple : RegionTuple :=
  { enable := true, x := 0, y := 0, w := 1, h := 1,
    prompt := "", negPrompt := "", blendMode := BlendModeL.background,
    featherFrac := 0 }

/-- Ragged-global Family-B environment: whole-canvas cond/uncond token
lengths 77 vs 231, one region, sampler step 5. -/
def envC1 : KEnv :=
  { samplerStep := 5, nBboxes := 1, globalCondLen := 77,
    globalUncondLen := 231, batchCondUncond := true, isEditModel := false }

/-- A fresh coordinator state (`self.kdiff_step = -1`, nothing cached). -/
def stFreshC1 : KDiffState ℕ :=
  { kdiffStep := -1, kdiffStepBbox := [], tensorCache := [],
    uncondCache := [], imageCondCache := [], a := [] }

/-- A call for region 0 with batch size `s`, one cached conditional entry
`[0]` and two unconditional entries `[10, 11]`. -/
def inpC1 (s : ℕ) : KCallIn ℕ :=
  { bboxId := 0, batchSize := s, condRows := [0], uncondRows := [10, 11],
    condSeqLen := 77, uncondSeqLen := 231, imageCond := none }

/-- The state after constructor + `init_custom_bbox(False, 2 tuples)` +
`init_custom_bbox(True, no tuples)`. -/
def stBadC10 : TDState :=
  tdInitCustomBBox
    (tdInitCustomBBox (tdInit (fun _ _ => 1) 64 64 64 64 32 1) false
      [goodTuple, goodTuple])
    true []

/-! ## Theorems -/

theorem natCeilDiv_one_le {a b : ℕ} (ha : 0 < a) (hb : 0 < b) :
    1 ≤ natCeilDiv a b := by
  unfold natCeilDiv
  rw [Nat.le_div_iff_mul_le hb]
  omega

theorem le_natCeilDiv_mul {a b : ℕ} (hb : 0 < b) : a ≤ natCeilDiv a b * b := by
  unfold natCeilDiv
  have h1 := Nat.div_add_mod (a + b - 1) b
  have h2 := Nat.mod_lt (a + b - 1) hb
  rw [Nat.mul_comm]
  omega

theorem mul_lt_of_lt_numBatches {n b i : ℕ} (hb : 0 < b)
    (hi : i < numBatchesOf n b) : i * b < n := by
  by_contra hc
  have hn : n ≤ i * b := Nat.le_of_not_lt hc
  have : numBatchesOf n b ≤ i := by
    unfold numBatchesOf natCeilDiv
    have h : (n + b - 1) / b < i + 1 := by
      rw [Nat.div_lt_iff_lt_mul hb, Nat.add_mul]
      omega
    omega
  omega

theorem chunks_join {β : Type} (b : ℕ) :
    ∀ (k : ℕ) (l : List β), l.length ≤ k * b →
      ((List.range k).map (fun i => (l.drop (i * b)).take b)).flatten = l := by
  intro k
  induction k with
  | zero =>
    intro l hl
    simp only [Nat.zero_mul, Nat.le_zero, List.length_eq_zero] at hl
    simp [hl]
  | succ k ih =>
    intro l hl
    rw [List.range_succ_eq_map, List.map_cons, List.map_map]
    have hmap : List.map ((fun i => (l.drop (i * b)).take b) ∘ Nat.succ)
        (List.range k)
        = List.map (fun i => ((l.drop b).drop (i * b)).take b)
        (List.range k) := by
      apply List.map_congr_left
      intro i _
      simp only [Function.comp]
      rw [List.drop_drop]
      congr 2
      simp only [Nat.succ_mul]
      ring
    rw [hmap]
    have hlen : (l.drop b).length ≤ k * b := by
      rw [List.length_drop]
      have hkb : (k + 1) * b = k * b + b := by ring
      omega
    rw [List.flatten_cons, ih (l.drop b) hlen]
    simp

theorem foldl_fixed {γ δ : Type} (f : γ → δ → γ) :
    ∀ (l : List δ) (acc : γ), (∀ a p, p ∈ l → f a p = a) → l.foldl f acc = acc := by
  intro l
  induction l with
  | nil => intro acc _; rfl
  | cons p t ih =>
    intro acc hfix
    rw [List.foldl_cons, hfix acc p (by simp)]
    exact ih acc (fun a q hq => hfix a q (by simp [hq]))

theorem featherStep_zero (w h : ℕ) (m : ℕ → ℕ → ℚ) (p : ℕ × ℕ) :
    featherStep w h 0 m p = m := by
  unfold featherStep
  simp

theorem featherStep_not_writes {w h r : ℕ} {p : ℕ × ℕ} {ci cj : ℕ}
    (hnw : ¬ featherWrites w h r p ci cj) (m : ℕ → ℕ → ℚ) :
    featherStep w h r m p ci cj = m ci cj := by
  unfold featherStep
  unfold featherWrites at hnw
  split
  · rfl
  · next hlt =>
    show (if (ci = p.1 ∨ ci = h - 1 - p.1) ∧ (cj = p.2 ∨ cj = w - 1 - p.2) then
        ((min p.1 p.2 : ℚ) / (r : ℚ)) ^ 2 else m ci cj) = m ci cj
    rw [if_neg]
    intro hmatch
    exact hnw ⟨by omega, hmatch⟩

theorem featherStep_writes {w h r : ℕ} {p : ℕ × ℕ} {ci cj : ℕ}
    (hw : featherWrites w h r p ci cj) (m : ℕ → ℕ → ℚ) :
    featherStep w h r m p ci cj = ((min p.1 p.2 : ℚ) / (r : ℚ)) ^ 2 := by
  obtain ⟨hlt, hm⟩ := hw
  unfold featherStep
  split
  · omega
  · simp [hm]

theorem featherFold_const (w h r : ℕ) (ci cj : ℕ) (v : ℚ) :
    ∀ (l : List (ℕ × ℕ)) (m : ℕ → ℕ → ℚ), m ci cj = v →
      (∀ p ∈ l, featherWrites w h r p ci cj →
        ((min p.1 p.2 : ℚ) / (r : ℚ)) ^ 2 = v) →
      (l.foldl (featherStep w h r) m) ci cj = v := by
  intro l
  induction l with
  | nil => intro m hm _; exact hm
  | cons p t ih =>
    intro m hm hl
    rw [List.foldl_cons]
    apply ih
    · by_cases hpw : featherWrites w h r p ci cj
      · rw [featherStep_writes hpw]
        exact hl p (by simp) hpw
      · rw [featherStep_not_writes hpw]
        exact hm
    · exact fun q hq => hl q (by simp [hq])

theorem featherFold_write (w h r : ℕ) (ci cj : ℕ) (v : ℚ) :
    ∀ (l : List (ℕ × ℕ)) (m : ℕ → ℕ → ℚ),
      (∀ p ∈ l, featherWrites w h r p ci cj →
        ((min p.1 p.2 : ℚ) / (r : ℚ)) ^ 2 = v) →
      (∃ p ∈ l, featherWrites w h r p ci cj) →
      (l.foldl (featherStep w h r) m) ci cj = v := by
  intro l
  induction l with
  | nil => intro m _ hex; simp at hex
  | cons p t ih =>
    intro m hval hex
    rw [List.foldl_cons]
    by_cases ht : ∃ q ∈ t, featherWrites w h r q ci cj
    · exact ih _ (fun q hq => hval q (by simp [hq])) ht
    · have hp : featherWrites w h r p ci cj := by
        rcases hex with ⟨q, hq, hqw⟩
        rcases List.mem_cons.mp hq with rfl | hqt
        · exact hqw
        · exact absurd ⟨q, hqt, hqw⟩ ht
      apply featherFold_const
      · rw [featherStep_writes hp]
        exact hval p (by simp) hp
      · intro q hq hqw
        exact absurd ⟨q, hq, hqw⟩ ht

theorem featherPairs_mem {h2 w2 : ℕ} {p : ℕ × ℕ} (hp : p ∈ featherPairs h2 w2) :
    p.1 < h2 ∧ p.2 < w2 := by
  unfold featherPairs at hp
  simp only [List.mem_bind, List.mem_map, List.mem_range] at hp
  obtain ⟨i, hi, j, hj, rfl⟩ := hp
  exact ⟨hi, hj⟩

theorem featherPairs_mem_intro {h2 w2 i j : ℕ} (hi : i < h2) (hj : j < w2) :
    (i, j) ∈ featherPairs h2 w2 := by
  unfold featherPairs
  simp only [List.mem_bind, List.mem_map, List.mem_range]
  exact ⟨i, hi, j, hj, rfl⟩

/-- C2 counterexample: with 7 tiles and requested batch size 3 the
construction yields batches of sizes `[3, 3, 1]`, which are not all within
1 of each other — the slicing loop uses the requested batch size, not the
rebalanced `optimalBatchSize`. -/
theorem C2_cex :
    (batchedBBoxes (List.range 7) 3).map List.length = [3, 3, 1] ∧
    numBatchesOf 7 3 = 3 ∧ optimalBatchSize 7 3 = 3 ∧
    ∃ s1 ∈ (batchedBBoxes (List.range 7) 3).map List.length,
      ∃ s2 ∈ (batchedBBoxes (List.range 7) 3).map List.length,
        s2 + 1 < s1 := by
  refine ⟨by decide, by decide, by decide, 3, by decide, 1, by decide, by decide⟩

/-- C2 (amended): for every tile list with `n > 0` tiles and requested
batch size `b > 0`, construction produces `numBatches = ceil(n/b)` batches
which concatenate to the original list in order, none empty, none larger
than the requested `b`, and every batch except possibly the last has size
exactly `b`.  (`optimalBatchSize = ceil(n/numBatches)` is computed and
stored in `self.tile_batch_size` but is not used by the slicing loop, so
batch sizes can differ by more than 1; the "all sizes within 1" part of the
claim fails — see `C2_cex`.) -/
theorem C2_batching {β : Type} (bboxes : List β) (b : ℕ)
    (hb : 0 < b) (hn : 0 < bboxes.length) :
    (batchedBBoxes bboxes b).length = numBatchesOf bboxes.length b ∧
    (batchedBBoxes bboxes b).flatten = bboxes ∧
    (∀ batch ∈ batchedBBoxes bboxes b, batch ≠ [] ∧ batch.length ≤ b) ∧
    (∀ i, i + 1 < numBatchesOf bboxes.length b →
      ((batchedBBoxes bboxes b).get? i).map List.length = some b) := by
  refine ⟨?_, ?_, ?_, ?_⟩
  · simp [batchedBBoxes]
  · exact chunks_join b _ bboxes (le_natCeilDiv_mul hb)
  · intro batch hbatch
    unfold batchedBBoxes at hbatch
    rw [List.mem_map] at hbatch
    obtain ⟨i, hi, rfl⟩ := hbatch
    rw [List.mem_range] at hi
    have hlt : i * b < bboxes.length := mul_lt_of_lt_numBatches hb hi
    constructor
    · rw [← List.length_pos, List.length_take, List.length_drop]
      omega
    · simpa using List.length_take_le b _
  · intro i hi
    unfold batchedBBoxes
    rw [List.get?_map, List.get?_range (by omega)]
    simp only [Option.map_some']
    have hlt : (i + 1) * b < bboxes.length := mul_lt_of_lt_numBatches hb hi
    have hexp : (i + 1) * b = i * b + b := by ring
    congr 1
    rw [List.length_take, List.length_drop]
    omega

/-- C2 witness: the amended statement at 5 tiles, requested batch size 2,
evaluated at the batch `[4]` and at index 0. -/
theorem C2_batching_w :
    (batchedBBoxes (List.range 5) 2).length = numBatchesOf (List.range 5).length 2 ∧
    (batchedBBoxes (List.range 5) 2).flatten = List.range 5 ∧
    (([4] : List ℕ) ≠ [] ∧ ([4] : List ℕ).length ≤ 2) ∧
    ((batchedBBoxes (List.range 5) 2).get? 0).map List.length = some 2 := by
  obtain ⟨l1, l2, l3, l4⟩ := C2_batching (List.range 5) 2 (by decide) (by decide)
  exact ⟨l1, l2, l3 [4] (by decide), l4 0 (by decide)⟩

theorem regionLoopIters_eq (t : ℕ) : regionLoopIters (9 * t) = t - 1 := by
  unfold regionLoopIters
  cases t with
  | zero => rfl
  | succ n =>
    have h : 9 * (n + 1) - 9 + 8 = 8 + n * 9 := by omega
    rw [h, Nat.add_mul_div_right _ _ (by norm_num : (0 : ℕ) < 9)]
    omega

theorem initCustomBBox_loop (W H : ℕ) (tuples : List RegionTuple) :
    ∀ m, m ≤ tuples.length →
      (List.range m).foldl (fun acc q =>
        match tuples.get? q with
        | none => acc
        | some t => if tupleValid t then acc ++ [mkCustomBBox W H t] else acc)
        []
      = ((tuples.take m).filter tupleValid).map (mkCustomBBox W H) := by
  intro m
  induction m with
  | zero => intro _; simp
  | succ m ih =>
    intro hm
    rw [List.range_succ, List.foldl_append, ih (by omega)]
    obtain ⟨t, ht⟩ : ∃ t, tuples.get? m = some t := by
      rw [List.get?_eq_get (by omega)]
      exact ⟨_, rfl⟩
    simp only [List.foldl_cons, List.foldl_nil]
    have ht2 : tuples[m]? = some t := by
      rw [← List.get?_eq_getElem?]; exact ht
    rw [ht, List.take_succ, ht2, List.filter_append, List.map_append]
    cases htv : tupleValid t with
    | true => simp [htv]
    | false => simp [htv]

/-- C3 (amended): `init_custom_bbox` keeps, in input order, exactly the
enabled non-degenerate tuples among all but the LAST input tuple: the loop
bound `len(bbox_control_states) - 9` stops one full 9-field tuple short, so
the final tuple is never examined (see `C3_cex`). -/
theorem C3_regions (W H : ℕ) (tuples : List RegionTuple) :
    initCustomBBox W H tuples =
      ((tuples.take (tuples.length - 1)).filter tupleValid).map
        (mkCustomBBox W H) := by
  unfold initCustomBBox
  rw [regionLoopIters_eq]
  exact initCustomBBox_loop W H tuples (tuples.length - 1) (by omega)

/-- C3 counterexample: a single enabled, non-degenerate region tuple
(`enable = true`, `x = y = 0`, `w = h = 1`) yields an empty
`custom_bboxes` list on a 64x64 canvas, where the claim requires exactly
one region. -/
theorem C3_cex :
    tupleValid goodTuple = true ∧ initCustomBBox 64 64 [goodTuple] = [] := by
  exact ⟨by decide, rfl⟩

theorem pyInt_natCast (n : ℕ) : pyInt (n : ℚ) = n := by
  unfold pyInt
  rw [if_pos (by positivity)]
  exact Int.floor_natCast n

theorem featherRadiusOne (w h : ℕ) :
    (pyInt (((min (w / 2) (h / 2) : ℕ) : ℚ) * 1)).toNat = min (w / 2) (h / 2) := by
  rw [mul_one, pyInt_natCast]
  omega

theorem generateFeatherMask_zero (w h i j : ℕ) :
    generateFeatherMask w h 0 i j = 1 := by
  unfold generateFeatherMask
  have hr : (pyInt (((min (w / 2) (h / 2) : ℕ) : ℚ) * 0)).toNat = 0 := by
    rw [mul_zero]
    unfold pyInt
    simp
  rw [hr, foldl_fixed (featherStep w h 0) _ _
    (fun a p _ => featherStep_zero w h a p)]

/-- C8 (amended): for every `w, h > 0`, `generate_feather_mask` with
`feather_ratio = 0` returns the all-ones mask and every loop iteration takes
the `continue` branch before the `(dist/r)**2` expression, so no division by
zero occurs; with `feather_ratio = 1` the center value is 1 and the corner
value is 0 *provided both sides are odd and at least 3*.  (As claimed — for
all `w, h > 0` — the ratio-1 part fails: at `w = h = 1` the single cell is
both center and corner and keeps value 1, see `C8_cex`; for even sides the
center cell itself is overwritten by the feather ramp.) -/
theorem C8_feather (w h : ℕ) :
    (∀ i j, generateFeatherMask w h 0 i j = 1) ∧
    (∀ m p, featherStep w h 0 m p = m) ∧
    (∀ a b : ℕ, 0 < a → 0 < b → w = 2 * a + 1 → h = 2 * b + 1 →
      generateFeatherMask w h 1 (h / 2) (w / 2) = 1 ∧
      generateFeatherMask w h 1 0 0 = 0) := by
  refine ⟨fun i j => generateFeatherMask_zero w h i j,
          fun m p => featherStep_zero w h m p, ?_⟩
  intro a b ha hb hw hh
  subst hw hh
  have hw2 : (2 * a + 1) / 2 = a := by omega
  have hh2 : (2 * b + 1) / 2 = b := by omega
  have hr : (pyInt (((min ((2 * a + 1) / 2) ((2 * b + 1) / 2) : ℕ) : ℚ) * 1)).toNat
      = min a b := by
    rw [featherRadiusOne, hw2, hh2]
  constructor
  · unfold generateFeatherMask
    rw [hr, hw2, hh2]
    apply featherFold_const
    · rfl
    · intro p hp hwr
      exfalso
      have hbnd := featherPairs_mem hp
      obtain ⟨_, hrow, _⟩ := hwr
      omega
  · unfold generateFeatherMask
    rw [hr, hw2, hh2]
    apply featherFold_write
    · intro p hp hwr
      have hbnd := featherPairs_mem hp
      obtain ⟨hdist, hrow, hcol⟩ := hwr
      have hp1 : p.1 = 0 := by omega
      have hp2 : p.2 = 0 := by omega
      rw [hp1, hp2]
      norm_num
    · refine ⟨(0, 0), featherPairs_mem_intro (by omega) (by omega), ?_, ?_, ?_⟩
      · simp
        omega
      · exact Or.inl rfl
      · exact Or.inl rfl

/-- C8 counterexample: at `w = h = 1` with `feather_ratio = 1`, the mask's
single cell — its corner `(0,0)` — has value 1, not the claimed 0: the loops
`range(h//2)`, `range(w//2)` are empty, so the all-ones mask is returned
unchanged. -/
theorem C8_cex : generateFeatherMask 1 1 1 0 0 = 1 ∧ (1 : ℚ) ≠ 0 := by
  exact ⟨rfl, by norm_num⟩

/-- C8 witness: at `w = h = 3` the ratio-0 mask is 1 at cell (1,1), the
ratio-1 mask has center value 1 and corner value 0. -/
theorem C8_feather_w :
    generateFeatherMask 3 3 0 1 1 = 1 ∧
    generateFeatherMask 3 3 1 (3 / 2) (3 / 2) = 1 ∧
    generateFeatherMask 3 3 1 0 0 = 0 := by
  obtain ⟨h0, _, h1⟩ := C8_feather 3 3
  obtain ⟨hc, hk⟩ := h1 1 1 (by decide) (by decide) (by decide) (by decide)
  exact ⟨h0 1 1, hc, hk⟩

/-- C6: in Family-A dispatch, a shorter unconditional sequence is padded by
repeating its last sequence element up to the positive length, a longer one
is truncated to the positive length, and exactly one external callback
invocation is produced per request. -/
theorem C6_ddim_pad (α ι : Type) [Inhabited α] (condsList : List (List ℕ))
    (tensor uncond : List (List α)) (ic : Option ι)
    (hcl : ∀ conds ∈ condsList, conds.length = 1)
    (hrect : ∀ row ∈ uncond, row.length = shape1 uncond) :
    ∃ call : DDIMCall α ι,
      ddimCustomForward α ι condsList tensor uncond ic = .ok [call] ∧
      call.condRows = tensor ∧ call.imageCond = ic ∧
      call.uncondRows.length = uncond.length ∧
      (∀ row ∈ call.uncondRows, row.length = shape1 tensor) ∧
      (shape1 uncond < shape1 tensor →
        call.uncondRows = uncond.map (fun row =>
          row ++ List.replicate (shape1 tensor - shape1 uncond)
            ((row.getLast?).getD default))) ∧
      (shape1 tensor < shape1 uncond →
        call.uncondRows = uncond.map (fun row => row.take (shape1 tensor))) ∧
      (shape1 uncond = shape1 tensor → call.uncondRows = uncond) := by
  unfold ddimCustomForward
  rw [if_pos]
  swap
  · rw [List.all_eq_true]
    intro conds hconds
    simpa using hcl conds hconds
  rcases Nat.lt_trichotomy (shape1 uncond) (shape1 tensor) with hlt | heq | hgt
  · rw [if_pos hlt]
    refine ⟨_, rfl, rfl, rfl, by rw [List.length_map], ?_, fun _ => rfl,
      fun h => absurd h (by omega), fun h => absurd h (by omega)⟩
    intro row hrow
    rw [List.mem_map] at hrow
    obtain ⟨row0, hrow0, rfl⟩ := hrow
    rw [List.length_append, List.length_replicate, hrect row0 hrow0]
    omega
  · rw [if_neg (by omega), if_neg (by omega)]
    refine ⟨_, rfl, rfl, rfl, rfl, ?_, fun h => absurd h (by omega),
      fun h => absurd h (by omega), fun _ => rfl⟩
    intro row hrow
    rw [hrect row hrow, heq]
  · rw [if_neg (by omega), if_pos hgt]
    refine ⟨_, rfl, rfl, rfl, by rw [List.length_map], ?_,
      fun h => absurd h (by omega), fun _ => rfl,
      fun h => absurd h (by omega)⟩
    intro row hrow
    rw [List.mem_map] at hrow
    obtain ⟨row0, hrow0, rfl⟩ := hrow
    rw [List.length_take, hrect row0 hrow0]
    omega

/-- C6 witness: positive length 3, negative length 2 — the negative row
`[7, 8]` is padded to `[7, 8, 8]` and exactly one call is produced. -/
theorem C6_ddim_pad_w :
    ddimCustomForward ℕ Unit [[5]] [[1, 2, 3]] [[7, 8]] none =
      .ok [⟨[[1, 2, 3]], [[7, 8, 8]], none⟩] := by
  obtain ⟨call, h1, hcond, himg, _, _, hpad, _, _⟩ :=
    C6_ddim_pad ℕ Unit [[5]] [[1, 2, 3]] [[7, 8]] none (by decide) (by decide)
  have hu : call.uncondRows = [[7, 8, 8]] := by
    rw [hpad (by decide)]
    rfl
  rcases call with ⟨cr, ur, ig⟩
  have e1 : cr = [[1, 2, 3]] := hcond
  have e2 : ur = [[7, 8, 8]] := hu
  have e3 : ig = none := himg
  subst e1 e2 e3
  exact h1

/-- C7: `ddim_custom_forward` raises the unsupported-operation error iff
some entry of `conds_list` has more than one component (under the external
reconstruction invariant that every entry is non-empty), and in the error
case no callback invocation is produced. -/
theorem C7_ddim_and (α ι : Type) [Inhabited α] (condsList : List (List ℕ))
    (tensor uncond : List (List α)) (ic : Option ι)
    (hne : ∀ conds ∈ condsList, conds ≠ []) :
    (ddimCustomForward α ι condsList tensor uncond ic =
        .error "composition via AND is not supported for DDIM/PLMS samplers"
      ↔ ∃ conds ∈ condsList, 1 < conds.length) ∧
    ((∃ conds ∈ condsList, 1 < conds.length) →
      ∀ calls, ddimCustomForward α ι condsList tensor uncond ic ≠ .ok calls) := by
  unfold ddimCustomForward
  by_cases hall : condsList.all (fun conds => conds.length == 1) = true
  · rw [if_pos hall]
    rw [List.all_eq_true] at hall
    have hnone : ¬ ∃ conds ∈ condsList, 1 < conds.length := by
      rintro ⟨conds, hmem, hlen⟩
      have h1 := hall conds hmem
      simp only [beq_iff_eq] at h1
      omega
    constructor
    · constructor
      · intro h
        exact Except.noConfusion h
      · intro h
        exact absurd h hnone
    · intro h
      exact absurd h hnone
  · rw [if_neg hall]
    rw [List.all_eq_true] at hall
    push_neg at hall
    obtain ⟨conds, hmem, hlen⟩ := hall
    have hlen1 : conds.length ≠ 1 := by simpa using hlen
    have hex : ∃ conds ∈ condsList, 1 < conds.length := by
      refine ⟨conds, hmem, ?_⟩
      have h0 : conds.length ≠ 0 :=
        fun hz => (hne conds hmem) (List.length_eq_zero.mp hz)
      omega
    constructor
    · exact ⟨fun _ => hex, fun _ => rfl⟩
    · intro _ calls h
      exact Except.noConfusion h

/-- C7 witness: a two-component entry (an AND prompt) triggers the error;
a single-component entry does not. -/
theorem C7_ddim_and_w :
    (ddimCustomForward ℕ Unit [[1, 2]] [] [] none =
      .error "composition via AND is not supported for DDIM/PLMS samplers") ∧
    ¬ (ddimCustomForward ℕ Unit [[1]] [] [] none =
      .error "composition via AND is not supported for DDIM/PLMS samplers") := by
  have h1 := C7_ddim_and ℕ Unit [[1, 2]] [] [] none (by decide)
  have h2 := C7_ddim_and ℕ Unit [[1]] [] [] none (by decide)
  constructor
  · exact h1.1.mpr ⟨[1, 2], by simp, by simp⟩
  · intro hc
    have := h2.1.mp hc
    simp at this

@[simp] theorem KCall_rows_mk {α : Type} (rows : List α) :
    (⟨rows⟩ : KCall α).rows = rows := rfl

theorem kdiffRun_cons {α : Type} (env : KEnv) (st : KDiffState α)
    (inp : KCallIn α) (inps : List (KCallIn α)) (st1 : KDiffState α)
    (calls : List (KCall α))
    (h : kdiffForward env st inp = some (st1, calls)) :
    kdiffRun env st (inp :: inps) =
      (kdiffRun env st1 inps).map (fun p => (p.1, calls ++ p.2)) := by
  rw [show kdiffRun env st (inp :: inps) =
    (match kdiffForward env st inp with
      | none => none
      | some (st1, calls) =>
        match kdiffRun env st1 inps with
        | none => none
        | some (st2, calls2) => some (st2, calls ++ calls2)) from rfl]
  rw [h]
  show (match kdiffRun env st1 inps with
    | none => none
    | some (st2, calls2) => some (st2, calls ++ calls2)) =
    (kdiffRun env st1 inps).map (fun p => (p.1, calls ++ p.2))
  cases hr : kdiffRun env st1 inps with
  | none => rfl
  | some p =>
    rcases p with ⟨st2, calls2⟩
    rfl

theorem kdiffForward_loaded {α : Type} {env : KEnv} {st : KDiffState α}
    {bboxId : ℕ} {condRows uncondRows : List α} {cursor : ℕ}
    (hl : KLoaded env st bboxId condRows uncondRows cursor)
    (inp : KCallIn α) (hid : inp.bboxId = bboxId) :
    kdiffForward env st inp = kdiffDispatchTail env st inp := by
  unfold kdiffForward
  rw [if_neg (not_not_intro hl.hstep)]
  unfold kdiffForwardTail
  rw [hid, hl.hmarker]
  simp

theorem kdiffDispatchTail_cond {α : Type} {env : KEnv} {st : KDiffState α}
    {bboxId : ℕ} {condRows uncondRows : List α} {cursor : ℕ}
    (hl : KLoaded env st bboxId condRows uncondRows cursor)
    (hedit : env.isEditModel = false)
    (inp : KCallIn α) (hid : inp.bboxId = bboxId)
    (hlt : cursor < condRows.length) :
    kdiffDispatchTail env st inp =
      some ({ st with a := st.a.set bboxId (cursor + inp.batchSize) },
        [⟨(condRows.drop cursor).take inp.batchSize⟩]) := by
  obtain ⟨icv, hicv⟩ := hl.hic
  unfold kdiffDispatchTail
  rw [hid, hl.htc, hl.huc, hl.ha, hicv]
  simp [hlt, hedit]

theorem kdiffDispatchTail_uncond {α : Type} {env : KEnv} {st : KDiffState α}
    {bboxId : ℕ} {condRows uncondRows : List α} {cursor : ℕ}
    (hl : KLoaded env st bboxId condRows uncondRows cursor)
    (inp : KCallIn α) (hid : inp.bboxId = bboxId)
    (hge : condRows.length ≤ cursor) :
    kdiffDispatchTail env st inp =
      some ({ st with a := st.a.set bboxId (cursor + inp.batchSize) },
        [⟨uncondRows⟩]) := by
  obtain ⟨icv, hicv⟩ := hl.hic
  unfold kdiffDispatchTail
  rw [hid, hl.htc, hl.huc, hl.ha, hicv]
  simp [Nat.not_lt.mpr hge]

theorem KLoaded_set {α : Type} {env : KEnv} {st : KDiffState α} {bboxId : ℕ}
    {condRows uncondRows : List α} {cursor : ℕ}
    (hl : KLoaded env st bboxId condRows uncondRows cursor) (v : ℕ) :
    KLoaded env { st with a := st.a.set bboxId v } bboxId condRows uncondRows
      v := by
  refine ⟨hl.hstep, hl.hmarker, hl.htc, hl.huc, hl.hic, ?_⟩
  obtain ⟨hlen, -⟩ := List.get?_eq_some.mp hl.ha
  simp only [List.get?_eq_getElem?]
  rw [List.getElem?_set_self]
  exact hlen

theorem kdiffRun_phase {α : Type} (env : KEnv) (bboxId : ℕ)
    (condRows uncondRows : List α) (csl usl : ℕ) (ic : Option α)
    (hedit : env.isEditModel = false) (lastSize : ℕ) :
    ∀ (condSizes : List ℕ) (st : KDiffState α) (cursor : ℕ),
      KLoaded env st bboxId condRows uncondRows cursor →
      (∀ s ∈ condSizes, 0 < s) →
      cursor + condSizes.sum = condRows.length →
      kdiffRunRows env st ((condSizes ++ [lastSize]).map (fun s =>
        ⟨bboxId, s, condRows, uncondRows, csl, usl, ic⟩)) =
        some (condRows.drop cursor ++ uncondRows) := by
  intro condSizes
  induction condSizes with
  | nil =>
    intro st cursor hl _ hsum
    simp only [List.nil_append, List.map_cons, List.map_nil]
    unfold kdiffRunRows
    rw [kdiffRun_cons env st _ _ _ _
      (by
        rw [kdiffForward_loaded hl _ rfl]
        exact kdiffDispatchTail_uncond hl _ rfl (by simp at hsum; omega))]
    rw [show kdiffRun env { st with
        a := st.a.set bboxId (cursor + lastSize) } [] =
      some ({ st with a := st.a.set bboxId (cursor + lastSize) }, []) from rfl]
    simp only [Option.map_some', List.append_nil, List.map_cons, List.map_nil,
      List.flatten]
    rw [List.drop_eq_nil_of_le (by simp at hsum; omega)]
    simp
  | cons s rest ih =>
    intro st cursor hl hpos hsum
    have hcur : cursor < condRows.length := by
      have hs := hpos s (by simp)
      simp only [List.sum_cons] at hsum
      omega
    simp only [List.cons_append, List.map_cons]
    rw [show (⟨bboxId, s, condRows, uncondRows, csl, usl, ic⟩ : KCallIn α) ::
      (rest ++ [lastSize]).map (fun sz =>
        ⟨bboxId, sz, condRows, uncondRows, csl, usl, ic⟩) =
      (⟨bboxId, s, condRows, uncondRows, csl, usl, ic⟩ : KCallIn α) ::
      (rest ++ [lastSize]).map (fun sz =>
        ⟨bboxId, sz, condRows, uncondRows, csl, usl, ic⟩) from rfl]
    unfold kdiffRunRows
    rw [kdiffRun_cons env st _ _ _ _
      (by
        rw [kdiffForward_loaded hl _ rfl]
        exact kdiffDispatchTail_cond hl hedit _ rfl hcur)]
    have hl2 := KLoaded_set hl (cursor + s)
    have ihr := ih { st with a := st.a.set bboxId (cursor + s) } (cursor + s)
      hl2 (fun q hq => hpos q (by simp [hq]))
      (by simp only [List.sum_cons] at hsum; omega)
    unfold kdiffRunRows at ihr
    cases hrun : kdiffRun env { st with a := st.a.set bboxId (cursor + s) }
        ((rest ++ [lastSize]).map (fun sz =>
          ⟨bboxId, sz, condRows, uncondRows, csl, usl, ic⟩)) with
    | none =>
      rw [hrun] at ihr
      exact absurd ihr (by simp)
    | some p =>
      rw [hrun] at ihr
      simp only [Option.map_some', Option.some.injEq] at ihr ⊢
      simp only [List.singleton_append, List.map_cons, List.flatten_cons,
        KCall_rows_mk]
      rw [ihr, ← List.append_assoc]
      congr 1
      have hdd : condRows.drop (cursor + s) = (condRows.drop cursor).drop s := by
        rw [List.drop_drop]
      rw [hdd, List.take_append_drop]

theorem kdiffForward_fresh {α : Type} (env : KEnv) (st : KDiffState α)
    (inp : KCallIn α)
    (hfresh : st.kdiffStep ≠ env.samplerStep)
    (hstep : env.samplerStep ≠ -1)
    (hb : inp.bboxId < env.nBboxes)
    (hragged : env.globalCondLen ≠ env.globalUncondLen) :
    kdiffForward env st inp =
      kdiffDispatchTail env (kdiffTouched α env inp) inp ∧
    KLoaded env (kdiffTouched α env inp) inp.bboxId inp.condRows
      inp.uncondRows 0 := by
  have hget : (kdiffResetState α env).kdiffStepBbox.get? inp.bboxId
      = some (-1) := by
    show (List.replicate env.nBboxes (-1 : ℤ)).get? inp.bboxId = some (-1)
    simp only [List.get?_eq_getElem?]
    simp [hb]
  constructor
  · unfold kdiffForward
    rw [if_pos hfresh]
    unfold kdiffForwardTail
    rw [hget]
    simp only [if_neg (show (-1 : ℤ) ≠ env.samplerStep from
      fun hcontra => hstep hcontra.symm), if_neg hragged]
    rfl
  · refine ⟨rfl, ?_, ?_, ?_, ⟨inp.imageCond, ?_⟩, ?_⟩
    · show ((List.replicate env.nBboxes (-1 : ℤ)).set inp.bboxId
        env.samplerStep).get? inp.bboxId = some env.samplerStep
      simp only [List.get?_eq_getElem?]
      rw [List.getElem?_set_self]
      simpa using hb
    · show List.lookup inp.bboxId [(inp.bboxId, inp.condRows)]
        = some inp.condRows
      simp [List.lookup]
    · show List.lookup inp.bboxId [(inp.bboxId, inp.uncondRows)]
        = some inp.uncondRows
      simp [List.lookup]
    · show List.lookup inp.bboxId [(inp.bboxId, inp.imageCond)]
        = some inp.imageCond
      simp [List.lookup]
    · show (List.replicate env.nBboxes (0 : ℕ)).get? inp.bboxId = some 0
      simp only [List.get?_eq_getElem?]
      simp [hb]

theorem kdiffRun_congr_first {α : Type} (env : KEnv) (st st2 : KDiffState α)
    (inp : KCallIn α) (inps : List (KCallIn α))
    (h : kdiffForward env st inp = kdiffForward env st2 inp) :
    kdiffRun env st (inp :: inps) = kdiffRun env st2 (inp :: inps) := by
  rw [show kdiffRun env st (inp :: inps) =
    (match kdiffForward env st inp with
      | none => none
      | some (st1, calls) =>
        match kdiffRun env st1 inps with
        | none => none
        | some (st2, calls2) => some (st2, calls ++ calls2)) from rfl]
  rw [show kdiffRun env st2 (inp :: inps) =
    (match kdiffForward env st2 inp with
      | none => none
      | some (st1, calls) =>
        match kdiffRun env st1 inps with
        | none => none
        | some (st2, calls2) => some (st2, calls ++ calls2)) from rfl]
  rw [h]

/-- C9: whenever the external sampler's step id differs from the
coordinator's recorded kdiff step, the next `kdiff_custom_forward` call
performs the step reset before dispatching: the per-region conditioning
caches `self.tensor`, `self.uncond`, `self.image_cond_in` are cleared,
every per-region step marker is invalidated (set to `-1`, which never equals
a live sampler step id), and every per-region progress cursor `self.a[i]`
is reset to zero. -/
theorem C9_reset (α : Type) (env : KEnv) (st : KDiffState α) (inp : KCallIn α)
    (h : st.kdiffStep ≠ env.samplerStep) (hs : env.samplerStep ≠ -1) :
    kdiffForward env st inp =
      kdiffForwardTail env (kdiffResetState α env) inp ∧
    (kdiffResetState α env).tensorCache = [] ∧
    (kdiffResetState α env).uncondCache = [] ∧
    (kdiffResetState α env).imageCondCache = [] ∧
    (kdiffResetState α env).a = List.replicate env.nBboxes 0 ∧
    (∀ i, i < env.nBboxes → (kdiffResetState α env).a.get? i = some 0) ∧
    (∀ marker ∈ (kdiffResetState α env).kdiffStepBbox,
      marker ≠ env.samplerStep) := by
  refine ⟨?_, rfl, rfl, rfl, rfl, ?_, ?_⟩
  · unfold kdiffForward
    rw [if_pos h]
  · intro i hi
    show (List.replicate env.nBboxes (0 : ℕ)).get? i = some 0
    simp only [List.get?_eq_getElem?]
    simp [hi]
  · intro marker hm
    have : marker = -1 := (List.eq_of_mem_replicate hm)
    subst this
    exact fun hcontra => hs hcontra.symm

/-- C9 witness: a fresh state (`kdiff_step = -1`) and sampler step 5,
with the cursor and marker facts evaluated at region 0. -/
theorem C9_reset_w :
    kdiffForward envC1 stFreshC1 (inpC1 1) =
      kdiffForwardTail envC1 (kdiffResetState ℕ envC1) (inpC1 1) ∧
    (kdiffResetState ℕ envC1).tensorCache = [] ∧
    (kdiffResetState ℕ envC1).uncondCache = [] ∧
    (kdiffResetState ℕ envC1).imageCondCache = [] ∧
    (kdiffResetState ℕ envC1).a = List.replicate envC1.nBboxes 0 ∧
    (kdiffResetState ℕ envC1).a.get? 0 = some 0 ∧
    (-1 : ℤ) ≠ envC1.samplerStep := by
  obtain ⟨h1, h2, h3, h4, h5, h6, h7⟩ :=
    C9_reset ℕ envC1 stFreshC1 (inpC1 1) (by decide) (by decide)
  exact ⟨h1, h2, h3, h4, h5, h6 0 (by decide), h7 (-1) (by decide)⟩

/-- C1 (amended): for Family-B dispatch with ragged global conditioning
(whole-canvas cond/uncond token lengths unequal), with `k` cached
conditional entries and `m` cached unconditional entries for a region,
starting from any state whose recorded step differs from the sampler's
(i.e. immediately after every step-boundary reset): if the caller-chosen
conditional batch sizes are positive and sum exactly to `k` (their
boundaries align with the conditional/unconditional split) and the
unconditional remainder is consumed by a SINGLE final call, then the
sequence of `kdiff_custom_forward` calls hands the external callback
exactly the `k` conditional entries first, in order and in the chosen
slices (advancing the per-region cursor `self.a[bbox_id]`), and then the
`m` unconditional entries, with no entry duplicated or lost.  (As claimed —
for ANY aligned batch-size sequence — the property fails: every
post-exhaustion call passes the whole cached unconditional tensor, so
splitting the unconditional remainder over two calls duplicates it, see
`C1_cex`.) -/
theorem C1_kdiff_ragged (α : Type) (env : KEnv) (st : KDiffState α)
    (bboxId : ℕ) (condRows uncondRows : List α) (csl usl : ℕ) (ic : Option α)
    (condSizes : List ℕ) (lastSize : ℕ)
    (hragged : env.globalCondLen ≠ env.globalUncondLen)
    (hedit : env.isEditModel = false)
    (hfresh : st.kdiffStep ≠ env.samplerStep)
    (hstep : env.samplerStep ≠ -1)
    (hb : bboxId < env.nBboxes)
    (hpos : ∀ s ∈ condSizes, 0 < s)
    (hsum : condSizes.sum = condRows.length) :
    kdiffRunRows env st ((condSizes ++ [lastSize]).map (fun s =>
      ⟨bboxId, s, condRows, uncondRows, csl, usl, ic⟩)) =
      some (condRows ++ uncondRows) := by
  obtain ⟨s0, sizes0, hs0⟩ :
      ∃ s0 sizes0, condSizes ++ [lastSize] = s0 :: sizes0 := by
    cases condSizes with
    | nil => exact ⟨lastSize, [], rfl⟩
    | cons a t => exact ⟨a, t ++ [lastSize], rfl⟩
  have hphase := kdiffRun_phase env bboxId condRows uncondRows csl usl ic
    hedit lastSize condSizes
  have hfr := kdiffForward_fresh env st
    (⟨bboxId, s0, condRows, uncondRows, csl, usl, ic⟩ : KCallIn α)
    hfresh hstep hb hragged
  have hcongr : kdiffRunRows env st ((condSizes ++ [lastSize]).map (fun s =>
      ⟨bboxId, s, condRows, uncondRows, csl, usl, ic⟩)) =
      kdiffRunRows env
        (kdiffTouched α env
          (⟨bboxId, s0, condRows, uncondRows, csl, usl, ic⟩ : KCallIn α))
        ((condSizes ++ [lastSize]).map (fun s =>
          ⟨bboxId, s, condRows, uncondRows, csl, usl, ic⟩)) := by
    have hforward : kdiffForward env st
        (⟨bboxId, s0, condRows, uncondRows, csl, usl, ic⟩ : KCallIn α) =
        kdiffForward env
          (kdiffTouched α env
            (⟨bboxId, s0, condRows, uncondRows, csl, usl, ic⟩ : KCallIn α))
          (⟨bboxId, s0, condRows, uncondRows, csl, usl, ic⟩ : KCallIn α) := by
      rw [hfr.1, kdiffForward_loaded hfr.2 _ rfl]
    unfold kdiffRunRows
    rw [hs0, List.map_cons]
    rw [kdiffRun_congr_first env st
      (kdiffTouched α env
        (⟨bboxId, s0, condRows, uncondRows, csl, usl, ic⟩ : KCallIn α))
      _ _ hforward]
  rw [hcongr]
  have := hphase
    (kdiffTouched α env
      (⟨bboxId, s0, condRows, uncondRows, csl, usl, ic⟩ : KCallIn α))
    0 hfr.2 hpos (by simpa using hsum)
  rw [this]
  rw [List.drop_zero]

/-- C1 witness: k = 3 conditional entries `[1, 2, 3]` consumed in slices of
sizes 2 and 1, then the m = 2 unconditional entries `[7, 8]` in one final
call, after a step-boundary reset. -/
theorem C1_kdiff_ragged_w :
    kdiffRunRows envC1 stFreshC1 (([2, 1] ++ [5]).map (fun s =>
      ⟨0, s, [1, 2, 3], [7, 8], 77, 231, none⟩)) =
      some ([1, 2, 3] ++ [7, 8]) :=
  C1_kdiff_ragged ℕ envC1 stFreshC1 0 [1, 2, 3] [7, 8] 77 231 none [2, 1] 5
    (by decide) (by decide) (by decide) (by decide) (by decide)
    (by decide) (by decide)

/-- C1 counterexample: k = 1 cached conditional entry `[0]`, m = 2 cached
unconditional entries `[10, 11]`, per-call batch sizes (1, 1, 1) — whose
boundaries 1, 2, 3 align with the conditional/unconditional split at 1.
The calls hand the callback the row sequence `[0, 10, 11, 10, 11]`: each
post-exhaustion call passes the WHOLE cached unconditional tensor, so the
two unconditional entries are consumed twice — duplicated, contradicting
the claimed "no entry duplicated or lost" for any aligned batch-size
sequence. -/
theorem C1_cex :
    kdiffRunRows envC1 stFreshC1 [inpC1 1, inpC1 1, inpC1 1] =
      some [0, 10, 11, 10, 11] ∧
    ([0, 10, 11, 10, 11] : List ℕ) ≠ [0] ++ [10, 11] := by
  exact ⟨rfl, by decide⟩

theorem pyInt_nonneg_eq_floor {q : ℚ} (h : 0 ≤ q) : pyInt q = ⌊q⌋ := by
  unfold pyInt
  exact if_pos h

theorem tileDx_nonneg {W tw : ℕ} (h2 : tw ≤ W) (cols : ℕ) :
    0 ≤ tileDx W tw cols := by
  unfold tileDx
  split
  · next hc =>
    apply div_nonneg
    · simp only [sub_nonneg]
      exact_mod_cast h2
    · have h1 : (1 : ℚ) < cols := by exact_mod_cast hc
      linarith
  · exact le_refl 0

theorem mul_tileDx_le {W tw cols c : ℕ} (h2 : tw ≤ W) (hc : c < cols) :
    (c : ℚ) * tileDx W tw cols ≤ (W : ℚ) - tw := by
  have hWtw : (0 : ℚ) ≤ (W : ℚ) - tw := by
    simp only [sub_nonneg]
    exact_mod_cast h2
  unfold tileDx
  split
  · next h1c =>
    have hgt : (1 : ℚ) < cols := by exact_mod_cast h1c
    have hden : (0 : ℚ) < (cols : ℚ) - 1 := by linarith
    have hcc : (c : ℚ) ≤ (cols : ℚ) - 1 := by
      have hcc1 : (c : ℚ) + 1 ≤ cols := by exact_mod_cast hc
      linarith
    have hdx0 : 0 ≤ ((W : ℚ) - tw) / ((cols : ℚ) - 1) :=
      div_nonneg hWtw (le_of_lt hden)
    calc (c : ℚ) * (((W : ℚ) - tw) / ((cols : ℚ) - 1))
        ≤ ((cols : ℚ) - 1) * (((W : ℚ) - tw) / ((cols : ℚ) - 1)) :=
          mul_le_mul_of_nonneg_right hcc hdx0
      _ = (W : ℚ) - tw := mul_div_cancel₀ _ (ne_of_gt hden)
  · rw [mul_zero]
    exact hWtw

theorem tileFloor_nonneg {W tw cols : ℕ} (h2 : tw ≤ W) (c : ℕ) :
    0 ≤ ⌊(c : ℚ) * tileDx W tw cols⌋ :=
  Int.floor_nonneg.mpr (mul_nonneg (by positivity) (tileDx_nonneg h2 cols))

theorem tileFloor_le {W tw cols c : ℕ} (h2 : tw ≤ W) (hc : c < cols) :
    ⌊(c : ℚ) * tileDx W tw cols⌋ ≤ (W : ℤ) - tw := by
  have h := mul_tileDx_le h2 hc
  have hcast : ((W : ℚ) - tw) = (((W : ℤ) - tw : ℤ) : ℚ) := by
    push_cast
    ring
  rw [hcast] at h
  calc ⌊(c : ℚ) * tileDx W tw cols⌋ ≤ ⌊(((W : ℤ) - tw : ℤ) : ℚ)⌋ :=
        Int.floor_le_floor h
    _ = (W : ℤ) - tw := Int.floor_intCast _

theorem tileOffset_eq_floor {W tw : ℕ} (h2 : tw ≤ W) {cols c : ℕ}
    (hc : c < cols) :
    tileOffset W tw cols c = (⌊(c : ℚ) * tileDx W tw cols⌋).toNat ∧
    tileOffset W tw cols c + tw ≤ W := by
  unfold tileOffset
  rw [pyInt_nonneg_eq_floor (mul_nonneg (by positivity) (tileDx_nonneg h2 cols))]
  have hle := tileFloor_le h2 hc
  have hnn := @tileFloor_nonneg W tw cols h2 c
  constructor
  · split
    · next hclamp => omega
    · rfl
  · split
    · next => omega
    · next h => omega

theorem tileOffset_add_le {W tw : ℕ} (h2 : tw ≤ W) (cols c : ℕ) :
    tileOffset W tw cols c + tw ≤ W := by
  unfold tileOffset
  split
  · next => omega
  · next h => omega

theorem tileOffset_zero {W tw : ℕ} (h2 : tw ≤ W) (cols : ℕ) :
    tileOffset W tw cols 0 = 0 := by
  have h0 : ((0 : ℕ) : ℚ) * tileDx W tw cols = 0 := by
    push_cast
    ring
  have hpy : pyInt (((0 : ℕ) : ℚ) * tileDx W tw cols) = 0 := by
    rw [h0]
    unfold pyInt
    simp
  unfold tileOffset
  rw [hpy]
  simp only [Int.toNat_zero, Nat.zero_add]
  split
  · next => omega
  · rfl

theorem natCeilDiv_le_one {a b : ℕ} (hb : 0 < b) (h : natCeilDiv a b ≤ 1) :
    a ≤ b := by
  by_contra hgt
  have h2 : 2 ≤ natCeilDiv a b := by
    unfold natCeilDiv
    rw [Nat.le_div_iff_mul_le hb]
    omega
  omega

theorem tileOffset_last {W tw o cols : ℕ} (h1 : 1 ≤ tw) (h2 : tw ≤ W)
    (ho : o < tw) (hcols : cols = natCeilDiv (W - o) (tw - o)) :
    tileOffset W tw cols (cols - 1) + tw = W := by
  by_cases hc1 : 1 < cols
  · have hden : ((cols : ℚ) - 1) ≠ 0 := by
      have : (1 : ℚ) < cols := by exact_mod_cast hc1
      linarith
    have hcast : ((cols - 1 : ℕ) : ℚ) = (cols : ℚ) - 1 := by
      have hge : 1 ≤ cols := by omega
      push_cast [hge]
      ring
    have hdxval : ((cols - 1 : ℕ) : ℚ) * tileDx W tw cols = (W : ℚ) - tw := by
      unfold tileDx
      rw [if_pos hc1, hcast, mul_div_cancel₀ _ hden]
    have hfl : ⌊((cols - 1 : ℕ) : ℚ) * tileDx W tw cols⌋ = (W : ℤ) - tw := by
      rw [hdxval, show ((W : ℚ) - tw) = (((W : ℤ) - tw : ℤ) : ℚ) by
        push_cast; ring]
      exact Int.floor_intCast _
    unfold tileOffset
    rw [pyInt_nonneg_eq_floor
      (mul_nonneg (by positivity) (tileDx_nonneg h2 cols)), hfl]
    split
    · next => omega
    · next h => omega
  · have hWtw : W ≤ tw := by
      have hco : W - o ≤ tw - o :=
        natCeilDiv_le_one (show 0 < tw - o by omega) (by omega)
      omega
    have hW : W = tw := le_antisymm hWtw h2
    have h0 : cols - 1 = 0 := by omega
    rw [h0, tileOffset_zero h2]
    omega

theorem tileDx_le {W tw o cols : ℕ} (h2 : tw ≤ W) (ho : o < tw)
    (hcols : cols = natCeilDiv (W - o) (tw - o)) (hc1 : 1 < cols) :
    tileDx W tw cols ≤ ((tw - o : ℕ) : ℚ) := by
  obtain ⟨cpred, hcp⟩ : ∃ cpred, cols = cpred + 1 := ⟨cols - 1, by omega⟩
  have hmul : (W - o) ≤ cols * (tw - o) := by
    rw [hcols]
    exact le_natCeilDiv_mul (by omega)
  have hnat : W - tw ≤ cpred * (tw - o) := by
    rw [hcp] at hmul
    have hexp : (cpred + 1) * (tw - o) = cpred * (tw - o) + (tw - o) := by ring
    omega
  have hgt : (1 : ℚ) < cols := by exact_mod_cast hc1
  have hden : (0 : ℚ) < (cols : ℚ) - 1 := by linarith
  have hcpq : ((cols : ℚ) - 1) = (cpred : ℚ) := by
    rw [hcp]
    push_cast
    ring
  have hcast : ((W : ℚ) - tw) ≤ ((cols : ℚ) - 1) * ((tw - o : ℕ) : ℚ) := by
    rw [hcpq]
    have hq : ((W - tw : ℕ) : ℚ) ≤ ((cpred * (tw - o) : ℕ) : ℚ) := by
      exact_mod_cast hnat
    rw [Nat.cast_sub h2] at hq
    rw [Nat.cast_mul] at hq
    exact hq
  unfold tileDx
  rw [if_pos hc1]
  rw [div_le_iff hden]
  linarith [hcast]

theorem tileOffset_gap {W tw o cols c : ℕ} (h2 : tw ≤ W)
    (ho : o < tw) (hcols : cols = natCeilDiv (W - o) (tw - o))
    (hc : c + 1 < cols) :
    tileOffset W tw cols (c + 1) ≤ tileOffset W tw cols c + tw := by
  have hc1 : 1 < cols := by omega
  obtain ⟨e1, -⟩ := tileOffset_eq_floor h2 (show c < cols by omega)
  obtain ⟨e2, -⟩ := tileOffset_eq_floor h2 hc
  rw [e1, e2]
  have hdle := tileDx_le h2 ho hcols hc1
  have hstep : ((c + 1 : ℕ) : ℚ) * tileDx W tw cols ≤
      (c : ℚ) * tileDx W tw cols + ((tw - o : ℕ) : ℚ) := by
    have hexp : ((c : ℚ) + 1) * tileDx W tw cols =
        (c : ℚ) * tileDx W tw cols + tileDx W tw cols := by ring
    push_cast
    linarith [hexp, hdle]
  have hfloor : ⌊((c + 1 : ℕ) : ℚ) * tileDx W tw cols⌋ ≤
      ⌊(c : ℚ) * tileDx W tw cols⌋ + ((tw - o : ℕ) : ℤ) := by
    calc ⌊((c + 1 : ℕ) : ℚ) * tileDx W tw cols⌋
        ≤ ⌊(c : ℚ) * tileDx W tw cols + ((tw - o : ℕ) : ℚ)⌋ :=
          Int.floor_le_floor hstep
      _ = ⌊(c : ℚ) * tileDx W tw cols⌋ + ((tw - o : ℕ) : ℤ) :=
          Int.floor_add_nat _ _
  have hnn1 := @tileFloor_nonneg W tw cols h2 c
  have hnn2 := @tileFloor_nonneg W tw cols h2 (c + 1)
  omega

theorem cover_from_gaps (f : ℕ → ℕ) (tw : ℕ) :
    ∀ (cols : ℕ), 1 ≤ cols → f 0 = 0 →
      (∀ c, c + 1 < cols → f (c + 1) ≤ f c + tw) →
      ∀ W, W ≤ f (cols - 1) + tw →
      ∀ j, j < W → ∃ c, c < cols ∧ f c ≤ j ∧ j < f c + tw := by
  intro cols
  induction cols with
  | zero => intro h; exact absurd h (by omega)
  | succ n ih =>
    intro _ h0 hgap W hlast j hj
    by_cases hn : n = 0
    · subst hn
      refine ⟨0, by omega, by omega, ?_⟩
      simp only [Nat.succ_sub_one] at hlast
      omega
    · by_cases hfn : f n ≤ j
      · refine ⟨n, by omega, hfn, ?_⟩
        have he : n + 1 - 1 = n := by omega
        rw [he] at hlast
        omega
      · have hgap2 : f n ≤ f (n - 1) + tw := by
          have he : (n - 1) + 1 = n := by omega
          have hg := hgap (n - 1) (by omega)
          rwa [he] at hg
        obtain ⟨c, hc, hcle, hclt⟩ := ih (by omega) h0
          (fun c hc => hgap c (by omega)) (f n) (by omega) j (by omega)
        exact ⟨c, by omega, hcle, hclt⟩

theorem tileCover1D {W tw o : ℕ} (h1 : 1 ≤ tw) (h2 : tw ≤ W) (ho : o < tw)
    (cols : ℕ) (hcols : cols = natCeilDiv (W - o) (tw - o)) :
    ∀ j, j < W → ∃ c, c < cols ∧ tileOffset W tw cols c ≤ j ∧
      j < tileOffset W tw cols c + tw := by
  have hpos : 1 ≤ cols := by
    rw [hcols]
    exact natCeilDiv_one_le (by omega) (by omega)
  have hlast := tileOffset_last h1 h2 ho hcols
  exact cover_from_gaps (tileOffset W tw cols) tw cols hpos
    (tileOffset_zero h2 cols) (fun c hc => tileOffset_gap h2 ho hcols hc)
    W (by omega)

theorem splitViews_mem_intro (kernel : ℕ → ℕ → ℚ) (W H tw th o r c : ℕ)
    (hr : r < natCeilDiv (H - o) (th - o))
    (hc : c < natCeilDiv (W - o) (tw - o)) :
    (⟨tileOffset W tw (natCeilDiv (W - o) (tw - o)) c,
      tileOffset H th (natCeilDiv (H - o) (th - o)) r, tw, th⟩ : BBoxL)
      ∈ (splitViews kernel W H tw th o).1 := by
  show _ ∈ (List.range (natCeilDiv (H - o) (th - o))).bind (fun r2 =>
    (List.range (natCeilDiv (W - o) (tw - o))).map (fun c2 =>
      (⟨tileOffset W tw (natCeilDiv (W - o) (tw - o)) c2,
        tileOffset H th (natCeilDiv (H - o) (th - o)) r2, tw, th⟩ : BBoxL)))
  simp only [List.mem_bind, List.mem_map, List.mem_range]
  exact ⟨r, hr, c, hc, rfl⟩

theorem splitViews_mem_elim {kernel : ℕ → ℕ → ℚ} {W H tw th o : ℕ}
    {bb : BBoxL} (hbb : bb ∈ (splitViews kernel W H tw th o).1) :
    ∃ r c, r < natCeilDiv (H - o) (th - o) ∧
      c < natCeilDiv (W - o) (tw - o) ∧
      bb = ⟨tileOffset W tw (natCeilDiv (W - o) (tw - o)) c,
        tileOffset H th (natCeilDiv (H - o) (th - o)) r, tw, th⟩ := by
  have hbb2 : bb ∈ (List.range (natCeilDiv (H - o) (th - o))).bind (fun r2 =>
    (List.range (natCeilDiv (W - o) (tw - o))).map (fun c2 =>
      (⟨tileOffset W tw (natCeilDiv (W - o) (tw - o)) c2,
        tileOffset H th (natCeilDiv (H - o) (th - o)) r2, tw, th⟩ : BBoxL))) :=
    hbb
  simp only [List.mem_bind, List.mem_map, List.mem_range] at hbb2
  obtain ⟨r, hr, c, hc, heq⟩ := hbb2
  exact ⟨r, c, hr, hc, heq.symm⟩

theorem splitWeight_apply (kernel : ℕ → ℕ → ℚ) :
    ∀ (l : List BBoxL) (base : ℕ → ℕ → ℚ) (i j : ℕ),
      (l.foldl (fun cnt bb => fun i2 j2 =>
        if bb.y ≤ i2 ∧ i2 < bb.y + bb.h ∧ bb.x ≤ j2 ∧ j2 < bb.x + bb.w then
          cnt i2 j2 + kernel (i2 - bb.y) (j2 - bb.x)
        else cnt i2 j2) base) i j
      = base i j + (l.map (bboxContrib kernel i j)).sum := by
  intro l
  induction l with
  | nil =>
    intro base i j
    simp
  | cons bb t ih =>
    intro base i j
    rw [List.foldl_cons, ih, List.map_cons, List.sum_cons]
    have hstep : (if bb.y ≤ i ∧ i < bb.y + bb.h ∧ bb.x ≤ j ∧ j < bb.x + bb.w
        then base i j + kernel (i - bb.y) (j - bb.x)
        else base i j) = base i j + bboxContrib kernel i j bb := by
      unfold bboxContrib
      split
      · rfl
      · rw [add_zero]
    rw [hstep]
    ring

theorem splitViews_weight_eq (kernel : ℕ → ℕ → ℚ) (W H tw th o i j : ℕ) :
    (splitViews kernel W H tw th o).2 i j =
      (((splitViews kernel W H tw th o).1).map (bboxContrib kernel i j)).sum := by
  show ((splitViews kernel W H tw th o).1.foldl (fun cnt bb => fun i2 j2 =>
    if bb.y ≤ i2 ∧ i2 < bb.y + bb.h ∧ bb.x ≤ j2 ∧ j2 < bb.x + bb.w then
      cnt i2 j2 + kernel (i2 - bb.y) (j2 - bb.x)
    else cnt i2 j2) (fun _ _ => 0)) i j = _
  rw [splitWeight_apply]
  simp

theorem clampTile_le (canvas req : ℕ) : clampTile canvas req ≤ canvas := by
  unfold clampTile
  split <;> omega

theorem clampTile_pos {canvas req : ℕ} (hc : 1 ≤ canvas) (hr : 1 ≤ req) :
    1 ≤ clampTile canvas req := by
  unfold clampTile
  split <;> omega

theorem clampOverlap_lt {tw th : ℕ} (htw : 1 ≤ tw) (hth : 1 ≤ th) (ro : ℤ) :
    clampOverlap tw th ro < tw ∧ clampOverlap tw th ro < th := by
  unfold clampOverlap
  split <;> constructor <;> omega

theorem splitViews_weights_pos (kernel : ℕ → ℕ → ℚ) (W H tw th o : ℕ)
    (htw1 : 1 ≤ tw) (htwW : tw ≤ W) (hth1 : 1 ≤ th) (hthH : th ≤ H)
    (how : o < tw) (hoh : o < th)
    (hker : ∀ a b, a < th → b < tw → 0 < kernel a b)
    (i j : ℕ) (hi : i < H) (hj : j < W) :
    0 < (splitViews kernel W H tw th o).2 i j := by
  obtain ⟨c, hc, hcx1, hcx2⟩ := tileCover1D htw1 htwW how _ rfl j hj
  obtain ⟨r, hr, hry1, hry2⟩ := tileCover1D hth1 hthH hoh _ rfl i hi
  rw [splitViews_weight_eq]
  have hmem := splitViews_mem_intro kernel W H tw th o r c hr hc
  have hpos : 0 < bboxContrib kernel i j
      (⟨tileOffset W tw (natCeilDiv (W - o) (tw - o)) c,
        tileOffset H th (natCeilDiv (H - o) (th - o)) r, tw, th⟩ : BBoxL) := by
    unfold bboxContrib
    rw [if_pos (show _ ∧ _ ∧ _ ∧ _ from ⟨hry1, hry2, hcx1, hcx2⟩)]
    dsimp only
    exact hker _ _ (by omega) (by omega)
  have hnonneg : ∀ q ∈ ((splitViews kernel W H tw th o).1.map
      (bboxContrib kernel i j)), 0 ≤ q := by
    intro q hq
    rw [List.mem_map] at hq
    obtain ⟨bb2, hbb2, rfl⟩ := hq
    obtain ⟨r2, c2, hr2, hc2, rfl⟩ := splitViews_mem_elim hbb2
    unfold bboxContrib
    split
    · next hin =>
      dsimp only at hin ⊢
      exact le_of_lt (hker _ _ (by omega) (by omega))
    · exact le_refl 0
  calc (0 : ℚ) < bboxContrib kernel i j
        (⟨tileOffset W tw (natCeilDiv (W - o) (tw - o)) c,
          tileOffset H th (natCeilDiv (H - o) (th - o)) r, tw, th⟩ : BBoxL) :=
        hpos
    _ ≤ ((splitViews kernel W H tw th o).1.map (bboxContrib kernel i j)).sum :=
        List.single_le_sum hnonneg _ (List.mem_map_of_mem _ hmem)

/-- C5: for every canvas size and requested (positive) tile size and
overlap, after the `__init__` clamps, if the per-tile weight kernel
`get_global_weights` is strictly positive on the tile footprint then the
weight map produced by `split_views` is strictly positive at every canvas
cell — equivalently, every canvas cell is covered by at least one produced
tile.  (Tile sizes are required positive: with a requested tile size of 0
the Python code raises `ZeroDivisionError` and produces no weight map.) -/
theorem C5_weights_pos (kernel : ℕ → ℕ → ℚ) (W H rtw rth : ℕ) (ro : ℤ)
    (hW : 1 ≤ W) (hH : 1 ≤ H) (htw : 1 ≤ rtw) (hth : 1 ≤ rth)
    (hker : ∀ a b, a < clampTile H rth → b < clampTile W rtw → 0 < kernel a b)
    (i j : ℕ) (hi : i < H) (hj : j < W) :
    0 < (tdSetup kernel W H rtw rth ro).2 i j := by
  obtain ⟨how, hoh⟩ :=
    clampOverlap_lt (clampTile_pos hW htw) (clampTile_pos hH hth) ro
  exact splitViews_weights_pos kernel W H (clampTile W rtw) (clampTile H rth)
    (clampOverlap (clampTile W rtw) (clampTile H rth) ro)
    (clampTile_pos hW htw) (clampTile_le W rtw)
    (clampTile_pos hH hth) (clampTile_le H rth)
    how hoh hker i j hi hj

/-- C5 witness: a 3x3 canvas, requested 2x2 tiles with overlap 1 and the
constant-1 kernel; the weight at cell (1, 2) is positive. -/
theorem C5_weights_pos_w :
    0 < (tdSetup (fun _ _ => 1) 3 3 2 2 1).2 1 2 :=
  C5_weights_pos (fun _ _ => 1) 3 3 2 2 1 (by decide) (by decide) (by decide)
    (by decide) (fun _ _ _ _ => by norm_num) 1 2 (by decide) (by decide)

theorem tileOffset_eq_spec {W tw : ℕ} (h2 : tw ≤ W) {cols c : ℕ}
    (hc : c < cols) :
    tileOffset W tw cols c = specFloorOffset W tw cols c := by
  obtain ⟨e, -⟩ := tileOffset_eq_floor h2 hc
  rw [e]
  unfold specFloorOffset tileDx
  by_cases h1c : 1 < cols
  · rw [if_pos h1c, if_pos h1c]
  · rw [if_neg h1c, if_neg h1c]
    have hc0 : c = 0 := by omega
    subst hc0
    simp

theorem bind_congr_mem {γ δ : Type} (l : List γ) (f g : γ → List δ)
    (h : ∀ a ∈ l, f a = g a) : l.bind f = l.bind g := by
  induction l with
  | nil => rfl
  | cons a t ih =>
    show f a ++ t.bind f = g a ++ t.bind g
    rw [h a (by simp), ih (fun b hb => h b (by simp [hb]))]

/-- C4 (amended): in `split_views`, for clamped tile sizes and overlap,
each tile column offset equals `floor(c*(W-tw)/(cols-1))` for `c` in
`[0, cols)` (0 when `cols = 1`) — `int()` truncates, it does NOT round as
claimed (see `C4_cex`) — symmetrically in y, and the final-column clamp
guarantees `x + tw <= W` and `y + th <= H` for every produced tile. -/
theorem C4_offsets (kernel : ℕ → ℕ → ℚ) (W H tw th o : ℕ)
    (htw1 : 1 ≤ tw) (htwW : tw ≤ W) (hth1 : 1 ≤ th) (hthH : th ≤ H)
    (how : o < tw) (hoh : o < th) :
    ((splitViews kernel W H tw th o).1 =
      (List.range (natCeilDiv (H - o) (th - o))).bind (fun r =>
        (List.range (natCeilDiv (W - o) (tw - o))).map (fun c =>
          (⟨specFloorOffset W tw (natCeilDiv (W - o) (tw - o)) c,
            specFloorOffset H th (natCeilDiv (H - o) (th - o)) r,
            tw, th⟩ : BBoxL)))) ∧
    ∀ bb ∈ (splitViews kernel W H tw th o).1,
      bb.x + tw ≤ W ∧ bb.y + th ≤ H := by
  constructor
  · show (List.range (natCeilDiv (H - o) (th - o))).bind (fun r =>
      (List.range (natCeilDiv (W - o) (tw - o))).map (fun c =>
        (⟨tileOffset W tw (natCeilDiv (W - o) (tw - o)) c,
          tileOffset H th (natCeilDiv (H - o) (th - o)) r,
          tw, th⟩ : BBoxL))) = _
    apply bind_congr_mem
    intro r hrr
    rw [List.mem_range] at hrr
    apply List.map_congr_left
    intro c hcc
    rw [List.mem_range] at hcc
    rw [tileOffset_eq_spec htwW hcc, tileOffset_eq_spec hthH hrr]
  · intro bb hbb
    obtain ⟨r, c, hr, hc, rfl⟩ := splitViews_mem_elim hbb
    constructor
    · exact tileOffset_add_le htwW _ _
    · exact tileOffset_add_le hthH _ _

/-- C4 witness: the amended statement at a 9x9 canvas with 4x4 tiles and
overlap 2. -/
theorem C4_offsets_w :
    ((splitViews (fun _ _ => 1) 9 9 4 4 2).1 =
      (List.range (natCeilDiv (9 - 2) (4 - 2))).bind (fun r =>
        (List.range (natCeilDiv (9 - 2) (4 - 2))).map (fun c =>
          (⟨specFloorOffset 9 4 (natCeilDiv (9 - 2) (4 - 2)) c,
            specFloorOffset 9 4 (natCeilDiv (9 - 2) (4 - 2)) r,
            4, 4⟩ : BBoxL)))) ∧
    ((⟨5, 0, 4, 4⟩ : BBoxL) ∈ (splitViews (fun _ _ => 1) 9 9 4 4 2).1 →
      (5 : ℕ) + 4 ≤ 9 ∧ (0 : ℕ) + 4 ≤ 9) := by
  obtain ⟨h1, h2⟩ := C4_offsets (fun _ _ => 1) 9 9 4 4 2 (by decide)
    (by decide) (by decide) (by decide) (by decide) (by decide)
  exact ⟨h1, fun hm => h2 (⟨5, 0, 4, 4⟩ : BBoxL) hm⟩

/-- C4 counterexample: at canvas W = H = 9 with clamped tile size 4 and
overlap 2 (so cols = 4 and dx = 5/3), the second column offset produced by
`split_views` is `int(1 * 5/3) = 1`, while the claimed formula gives
`round(1*(9-4)/(4-1)) = round(5/3) = 2`. -/
theorem C4_cex :
    ((splitViews (fun _ _ => 1) 9 9 4 4 2).1.get? 1).map BBoxL.x =
      some (tileOffset 9 4 4 1) ∧
    tileOffset 9 4 4 1 = 1 ∧
    round ((1 : ℚ) * (((9 : ℚ) - 4) / ((4 : ℚ) - 1))) = 2 ∧
    (1 : ℤ) ≠ 2 := by
  have hdx : tileDx 9 4 4 = 5 / 3 := by
    unfold tileDx
    norm_num
  have hq : ((1 : ℕ) : ℚ) * tileDx 9 4 4 = 5 / 3 := by
    rw [hdx]
    push_cast
    ring
  refine ⟨rfl, ?_, ?_, by decide⟩
  · have hfl : ⌊((1 : ℕ) : ℚ) * tileDx 9 4 4⌋ = 1 := by
      rw [hq, Int.floor_eq_iff]
      constructor
      · norm_num
      · norm_num
    have hpy : pyInt (((1 : ℕ) : ℚ) * tileDx 9 4 4) = 1 := by
      rw [pyInt_nonneg_eq_floor (by rw [hq]; norm_num), hfl]
    unfold tileOffset
    rw [hpy]
    norm_num
  · rw [round_eq]
    have h2 : (1 : ℚ) * (((9 : ℚ) - 4) / ((4 : ℚ) - 1)) + 1 / 2 = 13 / 6 := by
      norm_num
    rw [h2, Int.floor_eq_iff]
    constructor
    · norm_num
    · norm_num

/-- Length of a rectangular row-by-column `bind`/`map` grid. -/
theorem length_bind_range_map {γ : Type} (n m : ℕ) (f : ℕ → ℕ → γ) :
    ((List.range n).bind (fun r => (List.range m).map (f r))).length = n * m := by
  rw [List.length_bind]
  have hconst : (List.length ∘ fun r => List.map (f r) (List.range m)) =
      fun _ : ℕ => m := by
    funext r
    simp
  rw [hconst, List.map_const', List.sum_replicate, smul_eq_mul,
    List.length_range]

/-- `split_views` produces exactly `rows * cols` tiles. -/
theorem splitViews_length (kernel : ℕ → ℕ → ℚ) (W H tw th o : ℕ) :
    (splitViews kernel W H tw th o).1.length =
      natCeilDiv (H - o) (th - o) * natCeilDiv (W - o) (tw - o) :=
  length_bind_range_map (natCeilDiv (H - o) (th - o))
    (natCeilDiv (W - o) (tw - o))
    (fun r c => (⟨tileOffset W tw (natCeilDiv (W - o) (tw - o)) c,
      tileOffset H th (natCeilDiv (H - o) (th - o)) r, tw, th⟩ : BBoxL))

/-- With a nonempty canvas, positive requested tile sizes and a positive
batch size, the constructor records at least one background batch. -/
theorem tdInit_numBatches_pos (kernel : ℕ → ℕ → ℚ) (W H rtw rth : ℕ)
    (ro : ℤ) (batch : ℕ) (hW : 1 ≤ W) (hH : 1 ≤ H) (hrtw : 1 ≤ rtw)
    (hrth : 1 ≤ rth) (hb : 1 ≤ batch) :
    0 < (tdInit kernel W H rtw rth ro batch).numBatches := by
  show 0 < numBatchesOf (tdSetup kernel W H rtw rth ro).1.length batch
  have htw1 : 1 ≤ clampTile W rtw := clampTile_pos hW hrtw
  have hth1 : 1 ≤ clampTile H rth := clampTile_pos hH hrth
  have htwW : clampTile W rtw ≤ W := clampTile_le W rtw
  have hthH : clampTile H rth ≤ H := clampTile_le H rth
  obtain ⟨how, hoh⟩ := clampOverlap_lt htw1 hth1 ro
  have hlen : (tdSetup kernel W H rtw rth ro).1.length =
      natCeilDiv (H - clampOverlap (clampTile W rtw) (clampTile H rth) ro)
        (clampTile H rth -
          clampOverlap (clampTile W rtw) (clampTile H rth) ro) *
      natCeilDiv (W - clampOverlap (clampTile W rtw) (clampTile H rth) ro)
        (clampTile W rtw -
          clampOverlap (clampTile W rtw) (clampTile H rth) ro) :=
    splitViews_length kernel W H _ _ _
  unfold numBatchesOf
  apply natCeilDiv_one_le _ hb
  rw [hlen]
  exact Nat.mul_pos (natCeilDiv_one_le (by omega) (by omega))
    (natCeilDiv_one_le (by omega) (by omega))

/-- One `init_custom_bbox` call on a constructor-fresh state keeps the
assertion invariant: `draw_background` can only turn false together with a
nonempty region list, and `total_bboxes` stays positive. -/
theorem tdInitCustomBBox_invariant (st : TDState) (db : Bool)
    (tuples : List RegionTuple)
    (hst : st.drawBackground = true) (hnb : 0 < st.numBatches) :
    ((tdInitCustomBBox st db tuples).drawBackground = false →
      (tdInitCustomBBox st db tuples).customBBoxes ≠ []) ∧
    0 < tdTotalBboxes (tdInitCustomBBox st db tuples) := by
  simp only [tdInitCustomBBox]
  by_cases hc : (initCustomBBox st.w st.h tuples).length = 0
  · rw [if_pos hc]
    constructor
    · intro h
      dsimp only at h
      rw [hst] at h
      exact Bool.noConfusion h
    · unfold tdTotalBboxes
      dsimp only
      rw [hst, if_pos rfl, hc]
      omega
  · rw [if_neg hc]
    constructor
    · intro _
      dsimp only
      intro hnil
      exact hc (by rw [hnil]; rfl)
    · unfold tdTotalBboxes
      dsimp only
      have h1 : 0 < (initCustomBBox st.w st.h tuples).length :=
        Nat.pos_of_ne_zero hc
      split <;> omega

/-- C10 counterexample: constructor on a 64x64 canvas, then
`init_custom_bbox(False, [two enabled full-canvas tuples])` (the loop's
`len - 9` bound keeps one region and sets `draw_background = False`), then
`init_custom_bbox(True, [])` (empty result returns early, leaving
`draw_background` untouched) ends with `draw_background = False`, an empty
`custom_bboxes` list and `total_bboxes = 0`, so the `init` assertion
`total_bboxes > 0` fails, contradicting the claim that its error branch is
unreachable for states produced solely through the constructor and
`init_custom_bbox`. -/
theorem C10_cex :
    stBadC10.drawBackground = false ∧ stBadC10.customBBoxes = [] ∧
      tdTotalBboxes stBadC10 = 0 :=
  ⟨rfl, rfl, rfl⟩

/-- C10 (amended): after the constructor (nonempty canvas, positive
requested tile sizes and batch size) the `total_bboxes > 0` assertion
holds, and it is preserved by a SINGLE `init_custom_bbox` call, which can
set `draw_background = False` only together with a nonempty
`custom_bboxes`; the claim's "after any call" fails only for repeated
calls (see the counterexample). -/
theorem C10_assert (kernel : ℕ → ℕ → ℚ) (W H rtw rth : ℕ) (ro : ℤ)
    (batch : ℕ) (db : Bool) (tuples : List RegionTuple)
    (hW : 1 ≤ W) (hH : 1 ≤ H) (hrtw : 1 ≤ rtw) (hrth : 1 ≤ rth)
    (hb : 1 ≤ batch) :
    0 < tdTotalBboxes (tdInit kernel W H rtw rth ro batch) ∧
    ((tdInitCustomBBox (tdInit kernel W H rtw rth ro batch) db
        tuples).drawBackground = false →
      (tdInitCustomBBox (tdInit kernel W H rtw rth ro batch) db
        tuples).customBBoxes ≠ []) ∧
    0 < tdTotalBboxes (tdInitCustomBBox (tdInit kernel W H rtw rth ro batch)
        db tuples) := by
  have hnb : 0 < (tdInit kernel W H rtw rth ro batch).numBatches :=
    tdInit_numBatches_pos kernel W H rtw rth ro batch hW hH hrtw hrth hb
  have hinv := tdInitCustomBBox_invariant (tdInit kernel W H rtw rth ro batch)
    db tuples rfl hnb
  refine ⟨?_, hinv.1, hinv.2⟩
  unfold tdTotalBboxes
  have h1 : (tdInit kernel W H rtw rth ro batch).drawBackground = true := rfl
  have h2 : (tdInit kernel W H rtw rth ro batch).customBBoxes = [] := rfl
  rw [h1, h2, if_pos rfl]
  simpa using hnb

/-- C10 witness: the amended theorem applied to a 64x64 canvas, 64-tiles,
overlap 32, batch 1 and a single `init_custom_bbox(False, [])` call. -/
theorem C10_assert_w :
    0 < tdTotalBboxes (tdInit (fun _ _ => 1) 64 64 64 64 32 1) ∧
    ((tdInitCustomBBox (tdInit (fun _ _ => 1) 64 64 64 64 32 1) false
        []).drawBackground = false →
      (tdInitCustomBBox (tdInit (fun _ _ => 1) 64 64 64 64 32 1) false
        []).customBBoxes ≠ []) ∧
    0 < tdTotalBboxes (tdInitCustomBBox
        (tdInit (fun _ _ => 1) 64 64 64 64 32 1) false []) :=
  C10_assert (fun _ _ => 1) 64 64 64 64 32 1 false [] (by decide) (by decide)
    (by decide) (by decide) (by decide)
